import Mathlib

/-!
Verification development for the web-mcp-hub registry core:
the URL pattern matcher / specificity ranker (packages/db/src/url-matching.ts),
the tool/config validator (packages/db/src/validation.ts), and the
merge/prune engine (apps/web/lib/rate-limit.ts, updateConfig and
deleteToolFromConfig).

Strings are modelled through their character lists (`String.data`); all
definitions are structurally recursive and executable so that concrete runs
can be checked with `decide`.  Character-level operations mirror the
JavaScript ones on the ASCII range (JS `\w`, `toLowerCase`, and string
indexing agree with the model there).
-/

namespace WebMcpHub

/-- ASCII lowercase of a string (model of JS `toLowerCase` on ASCII input). -/
def lowerStr (s : String) : String := ⟨s.data.map Char.toLower⟩

/-- Model of JS `String.prototype.startsWith`. -/
def strStartsWith (s p : String) : Bool := p.data.isPrefixOf s.data

-- ---------------------------------------------------------------------------
-- url-matching.ts
-- ---------------------------------------------------------------------------

/-- Split a path into its `/`-separated nonempty segments:
model of `path.split("/").filter(Boolean)`.  `cur` accumulates the current
segment in reverse. -/
def splitSegsAux (cur : List Char) : List Char → List String
  | [] => if cur.isEmpty then [] else [⟨cur.reverse⟩]
  | c :: rest =>
    if c = '/' then
      if cur.isEmpty then splitSegsAux [] rest
      else ⟨cur.reverse⟩ :: splitSegsAux [] rest
    else splitSegsAux (c :: cur) rest

def splitSegs (s : String) : List String := splitSegsAux [] s.data

/-- `extractPath` from url-matching.ts: strip the domain, ensure a leading
slash, drop one trailing slash (except for the root). -/
def extractPath (urlPattern domain : String) : String :=
  let path := urlPattern
  let path := if strStartsWith (lowerStr path) domain then (⟨path.data.drop domain.data.length⟩ : String) else path
  let path := if strStartsWith path "/" then path else "/" ++ path
  if path.data.length > 1 ∧ path.data.getLast? = some '/' then ⟨path.data.dropLast⟩ else path

/-- Strip one leading `http://` or `https://` marker
(model of one application of the regex `^https?:\/\/`). -/
def stripSchemeOnce (s : String) : String :=
  if strStartsWith s "http://" then ⟨s.data.drop 7⟩
  else if strStartsWith s "https://" then ⟨s.data.drop 8⟩
  else s

/-- Leading `http://`/`https://` scheme marker, as `Some remainder`. -/
def schemeSplit (url : String) : Option (List Char) :=
  if strStartsWith url "http://" then some (url.data.drop 7)
  else if strStartsWith url "https://" then some (url.data.drop 8)
  else none

/-- Drop one trailing slash unless the path is just "/". -/
def dropTrailingSlashRoot (p : String) : String :=
  if p.data.length > 1 ∧ p.data.getLast? = some '/' then ⟨p.data.dropLast⟩ else p

/-- The `catch` branch of `normalizeUrlToPath`: strip a scheme-like marker,
take everything from the first `/` (or `/` when there is none), drop one
trailing slash. -/
def normalizeUrlFallback (url : String) : String :=
  let path : String := match schemeSplit url with
    | some r => ⟨r⟩
    | none => url
  let rest := path.data.dropWhile (fun c => c ≠ '/')
  let p : String := if rest.isEmpty then "/" else ⟨rest⟩
  dropTrailingSlashRoot p

/-- `normalizeUrlToPath` from url-matching.ts.  The `new URL(url)` branch is
modelled for http/https URLs with a nonempty host: the pathname is what
follows the host up to a query or fragment; any other input falls through to
the catch branch. -/
def normalizeUrlToPath (url : String) : String :=
  match schemeSplit url with
  | some rest =>
    let host := rest.takeWhile (fun c => c ≠ '/' ∧ c ≠ '?' ∧ c ≠ '#')
    if host.isEmpty then normalizeUrlFallback url
    else
      let after := rest.drop host.length
      match after with
      | '/' :: _ => dropTrailingSlashRoot ⟨after.takeWhile (fun c => c ≠ '?' ∧ c ≠ '#')⟩
      | _ => "/"
  | none => normalizeUrlFallback url

structure MatchResult where
  matched : Bool
  score : Nat
  params : List (String × String)
deriving DecidableEq, Repr

/-- JS object/Map key update: overwrite in place when the key is present,
append otherwise. -/
def mapSet {α : Type} (m : List (String × α)) (k : String) (v : α) : List (String × α) :=
  if m.any (fun p => p.1 = k) then m.map (fun p => if p.1 = k then (k, v) else p)
  else m ++ [(k, v)]

/-- The segment-walking loop of `matchUrlPattern`: wildcard stops with a
match, a dynamic `:name` segment consumes one URL segment for +2, a static
segment needs a case-insensitive equal URL segment for +3, and leftover URL
segments after the pattern are a mismatch. -/
def matchSegs : List String → List String → Nat → List (String × String) → MatchResult
  | [], [], score, params => ⟨true, score, params⟩
  | [], _ :: _, _, _ => ⟨false, 0, []⟩
  | p :: ps, us, score, params =>
    if p = "**" then ⟨true, score, params⟩
    else
      match us with
      | [] => ⟨false, 0, []⟩
      | u :: us' =>
        if strStartsWith p ":" then
          matchSegs ps us' (score + 2) (mapSet params ⟨p.data.drop 1⟩ u)
        else if lowerStr p = lowerStr u then
          matchSegs ps us' (score + 3) params
        else ⟨false, 0, []⟩

/-- `matchUrlPattern` from url-matching.ts. -/
def matchUrlPattern (urlPattern actualUrl domain : String) : MatchResult :=
  let patternPath := extractPath urlPattern domain
  let urlPath := normalizeUrlToPath actualUrl
  if patternPath = "/" then ⟨true, 0, []⟩
  else matchSegs (splitSegs patternPath) (splitSegs urlPath) 0 []

/-- `rankConfigsByUrl` from url-matching.ts: score every record, keep the
matches, sort by descending score (a stable sort, as JS `Array.sort`), and
return the records. -/
def rankConfigsByUrl {α : Type} (pat : α → String) (configs : List α)
    (actualUrl domain : String) : List α :=
  let scored := (configs.map (fun c => (c, matchUrlPattern (pat c) actualUrl domain))).filter
    (fun r => r.2.matched)
  (List.insertionSort (fun a b => b.2.score ≤ a.2.score) scored).map (fun s => s.1)

-- ---------------------------------------------------------------------------
-- validation.ts — data model (the shapes accepted by the zod schemas)
-- ---------------------------------------------------------------------------

/-- A primitive JSON value, for `defaultValue: z.union([string, number, boolean])`.
Numbers are modelled as integers; no claim inspects numeric values. -/
inductive PrimVal
  | s (v : String)
  | n (v : Int)
  | b (v : Bool)

/-- Shared base of every tool-field variant (`fieldBase` in validation.ts). -/
structure FieldBase where
  selector : String
  name : String
  description : String
  required : Option Bool := none
  defaultValue : Option PrimVal := none

structure SelectOption where
  value : String
  label : String

structure RadioOption where
  value : String
  label : String
  selector : String

/-- `toolFieldSchema`: discriminated union on `type`. -/
inductive ToolField
  | text (base : FieldBase)
  | number (base : FieldBase)
  | textarea (base : FieldBase)
  | select (base : FieldBase) (options : Option (List SelectOption)) (dynamicOptions : Option Bool)
  | checkbox (base : FieldBase)
  | radio (base : FieldBase) (options : List RadioOption)
  | date (base : FieldBase)
  | hidden (base : FieldBase)

def ToolField.base : ToolField → FieldBase
  | .text b => b
  | .number b => b
  | .textarea b => b
  | .select b _ _ => b
  | .checkbox b => b
  | .radio b _ => b
  | .date b => b
  | .hidden b => b

inductive WaitState | visible | exists_ | hidden
inductive ExtractKind | text | html | list | table | attr
inductive SubmitAction | click | enter

/-- `actionStepSchema`: discriminated union on `action`; `condition` is the
recursive variant (`z.lazy`), its `then`/`else` being lists of steps. -/
inductive ActionStep
  | navigate (url : String)
  | click (selector : String)
  | fill (selector value : String)
  | select (selector value : String)
  | wait (selector : String) (state : Option WaitState) (timeout : Option Int)
  | extract (selector : String) (extract : ExtractKind) (attr : Option String)
  | scroll (selector : String)
  | evaluate (value : String)
  | condition (selector : String) (state : WaitState)
      (thenSteps : List ActionStep) (elseSteps : Option (List ActionStep))

/-- `executionDescriptorSchema`. -/
structure ExecutionDescriptor where
  selector : String
  fields : Option (List ToolField) := none
  autosubmit : Bool
  submitAction : Option SubmitAction := none
  submitSelector : Option String := none
  resultSelector : Option String := none
  resultExtract : Option ExtractKind := none
  resultAttribute : Option String := none
  steps : Option (List ActionStep) := none
  resultDelay : Option Int := none
  resultWaitSelector : Option String := none
  resultRequired : Option Bool := none

/-- A `jsonSchemaPropertySchema` value: an object carrying at least `type`.
Only the pieces the claims inspect are carried explicitly. -/
structure SchemaProp where
  ptype : String
  pdescription : Option String := none

/-- `inputSchemaSchema`: `type: "object"` with a record of property objects
(the record is modelled as an association list in key order). -/
structure InputSchema where
  properties : List (String × SchemaProp)
  required : Option (List String) := none

/-- `toolDescriptorSchema`'s object shape (before the `superRefine` pass). -/
structure ToolDescriptor where
  name : String
  description : String
  inputSchema : InputSchema
  annotations : Option (List (String × String)) := none
  execution : Option ExecutionDescriptor := none

/-- `Object.keys(tool.inputSchema.properties)`. -/
def schemaProps (t : ToolDescriptor) : List String := t.inputSchema.properties.map (fun p => p.1)

-- ---------------------------------------------------------------------------
-- validation.ts — structural bounds (the zod min/max checks)
-- ---------------------------------------------------------------------------

/-- `z.string().min(lo).max(hi)` on a string. -/
def lenOk (s : String) (lo hi : Nat) : Bool := lo ≤ s.data.length && s.data.length ≤ hi

def optLenOk (s : Option String) (lo hi : Nat) : Bool :=
  match s with
  | none => true
  | some v => lenOk v lo hi

/-- Structural bounds of one tool field (per-variant shapes of `toolFieldSchema`). -/
def fieldOk (f : ToolField) : Bool :=
  (lenOk f.base.selector 1 500 && lenOk f.base.name 1 100 && lenOk f.base.description 1 2000) &&
  (match f with
   | .select _ opts _ =>
     match opts with
     | none => true
     | some os => os.length ≤ 100 && os.all (fun o => lenOk o.value 0 100 && lenOk o.label 0 200)
   | .radio _ os =>
     (1 ≤ os.length && os.length ≤ 50) &&
     os.all (fun o => lenOk o.value 0 100 && lenOk o.label 0 200 && lenOk o.selector 1 500)
   | _ => true)

mutual

/-- Structural bounds of one action step (`actionStepSchema`): per-variant
string/array bounds, recursing into `condition`'s `then`/`else`.  No nesting
depth bound appears anywhere in the schema. -/
def stepOk : ActionStep → Bool
  | .navigate url => lenOk url 1 2048
  | .click sel => lenOk sel 1 500
  | .fill sel v => lenOk sel 1 500 && lenOk v 0 10000
  | .select sel v => lenOk sel 1 500 && lenOk v 0 500
  | .wait sel _ _ => lenOk sel 1 500
  | .extract sel _ attr => lenOk sel 1 500 && optLenOk attr 0 200
  | .scroll sel => lenOk sel 1 500
  | .evaluate v => lenOk v 1 10000
  | .condition sel _ th el =>
    lenOk sel 1 500 && (th.length ≤ 20 && stepsOk th) &&
    (match el with
     | none => true
     | some e => e.length ≤ 20 && stepsOk e)

def stepsOk : List ActionStep → Bool
  | [] => true
  | s :: ss => stepOk s && stepsOk ss

end

mutual

/-- Nesting depth of `condition` steps (1 for a leaf step). -/
def stepDepth : ActionStep → Nat
  | .condition _ _ th el =>
    1 + max (stepsDepth th) (match el with | none => 0 | some e => stepsDepth e)
  | _ => 1

def stepsDepth : List ActionStep → Nat
  | [] => 0
  | s :: ss => max (stepDepth s) (stepsDepth ss)

end

def propOk (p : SchemaProp) : Bool :=
  lenOk p.ptype 0 50 && optLenOk p.pdescription 0 1000

/-- `inputSchemaSchema` together with its `superRefine` bound of at most 20
properties. -/
def inputSchemaOk (s : InputSchema) : Bool :=
  s.properties.all (fun kv => propOk kv.2) && s.properties.length ≤ 20

/-- Structural bounds of `executionDescriptorSchema`. -/
def executionOk (ex : ExecutionDescriptor) : Bool :=
  lenOk ex.selector 1 500 &&
  (match ex.fields with
   | none => true
   | some fs => fs.length ≤ 20 && fs.all fieldOk) &&
  optLenOk ex.submitSelector 0 500 &&
  optLenOk ex.resultSelector 0 500 &&
  optLenOk ex.resultAttribute 0 200 &&
  (match ex.steps with
   | none => true
   | some ss => ss.length ≤ 50 && stepsOk ss) &&
  optLenOk ex.resultWaitSelector 0 500

/-- The structural part of `toolDescriptorSchema` (everything before the
cross-reference `superRefine`). -/
def toolStructOk (t : ToolDescriptor) : Bool :=
  lenOk t.name 1 100 && lenOk t.description 1 2000 &&
  inputSchemaOk t.inputSchema &&
  (match t.annotations with
   | none => true
   | some kvs => kvs.all (fun kv => lenOk kv.2 0 500)) &&
  (match t.execution with
   | none => true
   | some ex => executionOk ex)

-- ---------------------------------------------------------------------------
-- validation.ts — cross-reference refinement (the superRefine pass)
-- ---------------------------------------------------------------------------

/-- One element of a zod issue path (`(string | number)[]`). -/
inductive PathElem
  | str (s : String)
  | idx (n : Nat)
deriving DecidableEq, Repr

/-- A collected validation issue (`ctx.addIssue`). -/
structure Issue where
  path : List PathElem
  message : String
deriving DecidableEq, Repr

/-- JS `\w`: ASCII letters, digits and underscore. -/
def isWordChar (c : Char) : Bool := c.isAlphanum || c = '_'

/-- Scanner for the global regex `/\x7b\x7b(\w+)\x7d\x7d/g`: repeatedly find
the leftmost occurrence of two opening braces, a nonempty run of word
characters, and two closing braces; report the captured word and continue
after the match.  Fuel is the length of the input, which every step strictly
decreases. -/
def scanTemplatesFuel : Nat → List Char → List String
  | 0, _ => []
  | _ + 1, [] => []
  | fuel + 1, c :: cs =>
    match cs with
    | [] => []
    | c2 :: rest =>
      if c = '\x7b' ∧ c2 = '\x7b' ∧ rest.takeWhile isWordChar ≠ [] ∧
          (rest.drop (rest.takeWhile isWordChar).length).take 2 = ['\x7d', '\x7d'] then
        (⟨rest.takeWhile isWordChar⟩ : String) ::
          scanTemplatesFuel fuel (rest.drop ((rest.takeWhile isWordChar).length + 2))
      else scanTemplatesFuel fuel cs

def scanTemplates (s : String) : List String := scanTemplatesFuel (s.data.length + 1) s.data

def joinComma : List String → String
  | [] => ""
  | [x] => x
  | x :: xs => x ++ ", " ++ joinComma xs

/-- Message of a template-variable cross-reference issue. -/
def templateMsg (tok : String) (props : List String) : String :=
  "Template variable \"\x7b\x7b" ++ tok ++ "\x7d\x7d\" does not match any inputSchema property. Available: "
    ++ joinComma props

/-- Message of an execution-field cross-reference issue
(`schemaProps.join(", ") || "(none)"`). -/
def fieldMsg (fieldName : String) (props : List String) : String :=
  "Execution field \"" ++ fieldName ++ "\" does not match any inputSchema property. Available: "
    ++ (let j := joinComma props; if j = "" then "(none)" else j)

/-- `checkTemplates` from the superRefine: one issue per scanned token that is
not an inputSchema property key, in scan order. -/
def checkTemplates (value : String) (props : List String) (path : List PathElem) : List Issue :=
  ((scanTemplates value).filter (fun tok => !props.contains tok)).map
    (fun tok => ⟨path, templateMsg tok props⟩)

/-- `step.url` when it is a string field of the step object. -/
def stepUrl : ActionStep → Option String
  | .navigate url => some url
  | _ => none

/-- `step.value` when it is a string field of the step object. -/
def stepValue : ActionStep → Option String
  | .fill _ v => some v
  | .select _ v => some v
  | .evaluate v => some v
  | _ => none

/-- `step.selector` when it is a string field of the step object. -/
def stepSelector : ActionStep → Option String
  | .click s => some s
  | .fill s _ => some s
  | .select s _ => some s
  | .wait s _ _ => some s
  | .extract s _ _ => some s
  | .scroll s => some s
  | .condition s _ _ _ => some s
  | _ => none

/-- The three string-bearing step fields the template check looks at. -/
inductive StepField | url | value | selector
deriving DecidableEq, Repr

def stepFieldGet : StepField → ActionStep → Option String
  | .url => stepUrl
  | .value => stepValue
  | .selector => stepSelector

def stepFieldName : StepField → String
  | .url => "url"
  | .value => "value"
  | .selector => "selector"

/-- Template issues of one step, checking `url`, then `value`, then
`selector` (the order of the source). -/
def checkStepTemplates (props : List String) (i : Nat) (st : ActionStep) : List Issue :=
  (match stepUrl st with
   | some v => checkTemplates v props [.str "execution", .str "steps", .idx i, .str "url"]
   | none => []) ++
  (match stepValue st with
   | some v => checkTemplates v props [.str "execution", .str "steps", .idx i, .str "value"]
   | none => []) ++
  (match stepSelector st with
   | some v => checkTemplates v props [.str "execution", .str "steps", .idx i, .str "selector"]
   | none => [])

/-- Pair every list element with its index, starting at `k`. -/
def withIdx {α : Type} (k : Nat) : List α → List (Nat × α)
  | [] => []
  | x :: xs => (k, x) :: withIdx (k + 1) xs

/-- The execution-field-name loop of the superRefine. -/
def fieldIssues (t : ToolDescriptor) : List Issue :=
  match t.execution with
  | none => []
  | some ex =>
    match ex.fields with
    | none => []
    | some fs =>
      (withIdx 0 fs).foldr
        (fun p acc =>
          (if !(schemaProps t).contains p.2.base.name then
            [⟨[.str "execution", .str "fields", .idx p.1, .str "name"],
              fieldMsg p.2.base.name (schemaProps t)⟩]
          else []) ++ acc) []

/-- The template-variable loop of the superRefine.  Note the guard: it runs
only when `inputSchema.properties` is nonempty and `execution.steps` exists. -/
def templateIssues (t : ToolDescriptor) : List Issue :=
  match t.execution with
  | none => []
  | some ex =>
    if (schemaProps t).length > 0 then
      match ex.steps with
      | none => []
      | some steps => ((withIdx 0 steps).map (fun p => checkStepTemplates (schemaProps t) p.1 p.2)).flatten
    else []

/-- The whole superRefine of `toolDescriptorSchema`: execution-field issues
first, then template issues (and nothing at all without an `execution`). -/
def crossRefIssues (t : ToolDescriptor) : List Issue :=
  fieldIssues t ++ templateIssues t

/-- `validateTool` acceptance: the structural schemas hold and the
cross-reference refinement emits no issue. -/
def validateToolOk (t : ToolDescriptor) : Bool :=
  toolStructOk t && (crossRefIssues t).isEmpty

-- ---------------------------------------------------------------------------
-- validation.ts — config level
-- ---------------------------------------------------------------------------

def dupMsg (n : String) : String := "Duplicate tool name \"" ++ n ++ "\""

/-- The loop of `uniqueToolNames`: walk the tools with a `seen` set, flagging
an occurrence exactly when its name was already seen. -/
def uniqueIssuesGo : List ToolDescriptor → List String → Nat → List Issue
  | [], _, _ => []
  | t :: ts, seen, i =>
    (if seen.contains t.name then [⟨[.idx i, .str "name"], dupMsg t.name⟩] else []) ++
    uniqueIssuesGo ts (t.name :: seen) (i + 1)

/-- `uniqueToolNames` from validation.ts. -/
def uniqueToolNamesIssues (tools : List ToolDescriptor) : List Issue :=
  uniqueIssuesGo tools [] 0

/-- Drop all trailing `/` characters (`replace(/\/+$/, "")`). -/
def stripTrailingSlashes (s : String) : String :=
  ⟨(s.data.reverse.dropWhile (fun c => c = '/')).reverse⟩

/-- `normalizeUrlPattern` from validation.ts: strip one leading scheme marker
and all trailing slashes, falling back to the input itself when that leaves
the empty string (`|| val`). -/
def normalizeUrlPattern (val : String) : String :=
  let r := stripTrailingSlashes (stripSchemeOnce val)
  if r = "" then val else r

/-- The `urlPattern` field rule of `createConfigSchema`:
`z.string().min(1).max(2048).transform(normalizeUrlPattern)`. -/
def urlPatternField (val : String) : Option String :=
  if 1 ≤ val.data.length ∧ val.data.length ≤ 2048 then some (normalizeUrlPattern val) else none

def startsWithScheme (s : String) : Bool :=
  strStartsWith s "http://" || strStartsWith s "https://"

def endsWithSlash (s : String) : Bool := s.data.getLast? = some '/'

-- ---------------------------------------------------------------------------
-- rate-limit.ts — merge-by-name and prune (updateConfig, deleteToolFromConfig)
-- ---------------------------------------------------------------------------

/-- The tool-merge step of `updateConfig`: seed a name-keyed map from the
existing tools, insert-or-overwrite every incoming tool by name, and read the
values back in map order.  Polymorphic in the record type; `nm` is the
`.name` projection. -/
def mergeTools {α : Type} (nm : α → String) (existing incoming : List α) : List α :=
  let seeded := existing.foldl (fun m t => mapSet m (nm t) t) []
  (incoming.foldl (fun m t => mapSet m (nm t) t) seeded).map (fun p => p.2)

/-- The verified-map prune of `updateConfig`: keep exactly the entries whose
key is among the current tool names. -/
def pruneVerified {α : Type} (verified : List (String × α)) (currentNames : List String) :
    List (String × α) :=
  verified.filter (fun p => currentNames.contains p.1)

/-- The verified-map prune of `deleteToolFromConfig`: keep the entries whose
key differs from the deleted tool's name. -/
def deletePruneVerified {α : Type} (verified : List (String × α)) (toolName : String) :
    List (String × α) :=
  verified.filter (fun p => p.1 != toolName)

/-- One pattern segment accepting one URL segment: a dynamic `:name` segment
accepts anything, a static segment needs case-insensitive equality. -/
def segMatch (p u : String) : Bool := strStartsWith p ":" || decide (lowerStr p = lowerStr u)

/-- The value an existing map entry ends up with after the incoming
insert-or-overwrite pass: the incoming tool of the same name if any,
otherwise the entry itself. -/
def overridePair {α : Type} (nm : α → String) (ts : List α) (p : String × α) : String × α :=
  match ts.find? (fun u => decide (nm u = p.1)) with
  | some u => (p.1, u)
  | none => p

/-- The merged value an existing tool contributes: overridden by the incoming
tool of the same name when one exists. -/
def overrideVal {α : Type} (nm : α → String) (inc : List α) (t : α) : α :=
  match inc.find? (fun u => decide (nm u = nm t)) with
  | some u => u
  | none => t

-- ---------------------------------------------------------------------------
-- Concrete fixtures used by the counterexamples and witnesses
-- ---------------------------------------------------------------------------

/-- A concrete tool whose step url carries a `(({user-id}))`-style template
with a non-word character, and a nonempty property set. -/
def userIdTool : ToolDescriptor :=
  { name := "t", description := "d",
    inputSchema := { properties := [("q", { ptype := "string" })] },
    execution := some
      { selector := "#f", autosubmit := false,
        steps := some [.navigate "\x7b\x7buser-id\x7d\x7d"] } }

/-- A concrete tool with an empty property set and an unknown `((foo))`-style
template in a step url. -/
def emptyPropsTool : ToolDescriptor :=
  { name := "t", description := "d",
    inputSchema := { properties := [] },
    execution := some
      { selector := "#f", autosubmit := false,
        steps := some [.navigate "\x7b\x7bfoo\x7d\x7d"] } }

/-- A concrete tool with property `q` and a step url containing an unknown
`((foo))`-style template. -/
def unknownTokTool : ToolDescriptor :=
  { name := "t", description := "d",
    inputSchema := { properties := [("q", { ptype := "string" })] },
    execution := some
      { selector := "#f", autosubmit := false,
        steps := some [.navigate "\x7b\x7bfoo\x7d\x7d"] } }

/-- A minimal structurally valid tool used to exhibit duplicates. -/
def dupTool : ToolDescriptor :=
  { name := "t", description := "d", inputSchema := { properties := [] } }

/-- A family of condition steps of strictly growing nesting depth, each
within every per-node bound of the schema. -/
def nestCond : Nat → ActionStep
  | 0 => .click "s"
  | n + 1 => .condition "s" .visible [nestCond n] none

/-- A structurally minimal tool whose single step is `nestCond n`. -/
def toolNest (n : Nat) : ToolDescriptor :=
  { name := "t", description := "d", inputSchema := { properties := [] },
    execution := some
      { selector := "s", autosubmit := false, steps := some [nestCond n] } }

/-- The deepest `condition` nesting among a tool's execution steps. -/
def toolCondDepth (t : ToolDescriptor) : Nat :=
  match t.execution with
  | none => 0
  | some ex =>
    match ex.steps with
    | none => 0
    | some ss => stepsDepth ss

-- ---------------------------------------------------------------------------
-- Helper lemmas about the matcher
-- ---------------------------------------------------------------------------

theorem matchSegs_cons_dyn (p : String) (ps : List String) (u : String) (us' : List String)
    (sc : Nat) (pr : List (String × String)) (hpw : p ≠ "**") (hd : strStartsWith p ":" = true) :
    matchSegs (p :: ps) (u :: us') sc pr = matchSegs ps us' (sc + 2) (mapSet pr ⟨p.data.drop 1⟩ u) := by
  simp [matchSegs, hpw, hd]

theorem matchSegs_cons_static (p : String) (ps : List String) (u : String) (us' : List String)
    (sc : Nat) (pr : List (String × String)) (hpw : p ≠ "**") (hd : strStartsWith p ":" = false)
    (hs : lowerStr p = lowerStr u) :
    matchSegs (p :: ps) (u :: us') sc pr = matchSegs ps us' (sc + 3) pr := by
  simp [matchSegs, hpw, hd, hs]

theorem matchSegs_cons_fail (p : String) (ps : List String) (u : String) (us' : List String)
    (sc : Nat) (pr : List (String × String)) (hpw : p ≠ "**") (hd : strStartsWith p ":" = false)
    (hs : lowerStr p ≠ lowerStr u) :
    matchSegs (p :: ps) (u :: us') sc pr = ⟨false, 0, []⟩ := by
  simp [matchSegs, hpw, hd, hs]

theorem matchSegs_score (ps : List String) :
    ∀ us sc pr, "**" ∉ ps → (matchSegs ps us sc pr).matched = true →
      (matchSegs ps us sc pr).score =
        sc + 3 * ps.countP (fun s => !strStartsWith s ":") +
          2 * ps.countP (fun s => strStartsWith s ":") := by
  induction ps with
  | nil =>
    intro us sc pr _ hm
    cases us with
    | nil => simp [matchSegs]
    | cons u us' => simp [matchSegs] at hm
  | cons p ps ih =>
    intro us sc pr hw hm
    have hpw : p ≠ "**" := fun h => hw (h ▸ List.mem_cons_self p ps)
    have hw' : "**" ∉ ps := fun h => hw (List.mem_cons_of_mem p h)
    cases us with
    | nil => simp [matchSegs, hpw] at hm
    | cons u us' =>
      rcases hd : strStartsWith p ":" with _ | _
      · by_cases hs : lowerStr p = lowerStr u
        · rw [matchSegs_cons_static p ps u us' sc pr hpw hd hs] at hm ⊢
          rw [ih us' (sc + 3) pr hw' hm]
          simp [List.countP_cons, hd]
          omega
        · rw [matchSegs_cons_fail p ps u us' sc pr hpw hd hs] at hm
          simp at hm
      · rw [matchSegs_cons_dyn p ps u us' sc pr hpw hd] at hm ⊢
        rw [ih us' (sc + 2) (mapSet pr ⟨p.data.drop 1⟩ u) hw' hm]
        simp [List.countP_cons, hd]
        omega

theorem matchSegs_matched_iff (ps : List String) :
    ∀ us sc pr, "**" ∉ ps →
      ((matchSegs ps us sc pr).matched = true ↔
        List.Forall₂ (fun p u => segMatch p u = true) ps us) := by
  induction ps with
  | nil =>
    intro us sc pr _
    cases us with
    | nil => simp [matchSegs]
    | cons u us' => simp [matchSegs]
  | cons p ps ih =>
    intro us sc pr hw
    have hpw : p ≠ "**" := fun h => hw (h ▸ List.mem_cons_self p ps)
    have hw' : "**" ∉ ps := fun h => hw (List.mem_cons_of_mem p h)
    cases us with
    | nil => simp [matchSegs, hpw]
    | cons u us' =>
      rw [List.forall₂_cons]
      rcases hd : strStartsWith p ":" with _ | _
      · by_cases hs : lowerStr p = lowerStr u
        · rw [matchSegs_cons_static p ps u us' sc pr hpw hd hs,
            ih us' (sc + 3) pr hw']
          simp [segMatch, hd, hs]
        · rw [matchSegs_cons_fail p ps u us' sc pr hpw hd hs]
          simp [segMatch, hd, hs]
      · rw [matchSegs_cons_dyn p ps u us' sc pr hpw hd,
          ih us' (sc + 2) (mapSet pr ⟨p.data.drop 1⟩ u) hw']
        simp [segMatch, hd]

/-- C1 — For a pattern whose segments contain no `**` wildcard, full matching
of the URL path is segmentwise matching, and on a match the score is exactly
3·(number of static segments) + 2·(number of dynamic `:param` segments):
each matching static segment contributes 3 and each dynamic segment 2. -/
theorem matchUrlPattern_score_3N_2M (pattern url domain : String)
    (hw : "**" ∉ splitSegs (extractPath pattern domain)) :
    ((matchUrlPattern pattern url domain).matched = true ↔
      (extractPath pattern domain = "/" ∨
        List.Forall₂ (fun p u => segMatch p u = true)
          (splitSegs (extractPath pattern domain)) (splitSegs (normalizeUrlToPath url)))) ∧
    ((matchUrlPattern pattern url domain).matched = true →
      (matchUrlPattern pattern url domain).score =
        3 * (splitSegs (extractPath pattern domain)).countP (fun s => !strStartsWith s ":") +
          2 * (splitSegs (extractPath pattern domain)).countP (fun s => strStartsWith s ":")) := by
  by_cases hp : extractPath pattern domain = "/"
  · have hsegs : splitSegs (extractPath pattern domain) = [] := by
      rw [hp]; decide
    constructor
    · simp [matchUrlPattern, hp]
    · intro _
      have hscore : (matchUrlPattern pattern url domain).score = 0 := by
        simp [matchUrlPattern, hp]
      rw [hscore, hsegs]
      decide
  · constructor
    · rw [or_iff_right hp]
      simpa [matchUrlPattern, hp] using
        matchSegs_matched_iff (splitSegs (extractPath pattern domain))
          (splitSegs (normalizeUrlToPath url)) 0 [] hw
    · intro hm
      have := matchSegs_score (splitSegs (extractPath pattern domain))
        (splitSegs (normalizeUrlToPath url)) 0 [] hw
      simp only [matchUrlPattern, if_neg hp] at hm ⊢
      simpa using this hm

/-- Witness for C1 at `example.com/users/:id` against
`https://example.com/users/42`: one static and one dynamic segment, score 5. -/
theorem matchUrlPattern_score_3N_2M_witness :
    (matchUrlPattern "example.com/users/:id" "https://example.com/users/42" "example.com").score = 5 := by
  have h := (matchUrlPattern_score_3N_2M "example.com/users/:id"
    "https://example.com/users/42" "example.com" (by decide)).2 (by decide)
  rw [h]
  decide

/-- C2 counterexample — the pattern `example.com/**/admin` has its `**` in a
non-final position, yet it matches (the claim says a malformed pattern never
matches any URL). -/
theorem malformed_wildcard_matches :
    splitSegs (extractPath "example.com/**/admin" "example.com") = ["**", "admin"] ∧
    (matchUrlPattern "example.com/**/admin" "https://example.com/anything" "example.com").matched = true := by
  decide

theorem matchSegs_truncate (ps : List String) :
    ∀ us sc pr, "**" ∈ ps →
      matchSegs ps us sc pr =
        matchSegs (ps.takeWhile (fun s => s ≠ "**") ++ ["**"]) us sc pr := by
  induction ps with
  | nil => intro us sc pr h; exact absurd h (List.not_mem_nil _)
  | cons p ps ih =>
    intro us sc pr h
    by_cases hpw : p = "**"
    · subst hpw
      simp [matchSegs, List.takeWhile_cons]
    · have h' : "**" ∈ ps := by
        cases List.mem_cons.mp h with
        | inl heq => exact absurd heq.symm hpw
        | inr hmem => exact hmem
      have htw : (p :: ps).takeWhile (fun s => s ≠ "**") = p :: ps.takeWhile (fun s => s ≠ "**") := by
        simp [List.takeWhile_cons, hpw]
      rw [htw]
      cases us with
      | nil => simp [matchSegs, hpw]
      | cons u us' =>
        rw [List.cons_append]
        rcases hd : strStartsWith p ":" with _ | _
        · by_cases hs : lowerStr p = lowerStr u
          · rw [matchSegs_cons_static p ps u us' sc pr hpw hd hs,
              matchSegs_cons_static p _ u us' sc pr hpw hd hs]
            exact ih us' (sc + 3) pr h'
          · rw [matchSegs_cons_fail p ps u us' sc pr hpw hd hs,
              matchSegs_cons_fail p _ u us' sc pr hpw hd hs]
        · rw [matchSegs_cons_dyn p ps u us' sc pr hpw hd,
            matchSegs_cons_dyn p _ u us' sc pr hpw hd]
          exact ih us' (sc + 2) (mapSet pr ⟨p.data.drop 1⟩ u) h'

/-- C2 amended — a `**` segment need not be last: matching stops at the first
`**` with a successful match and every later pattern segment is ignored, so a
pattern with `**` not last behaves exactly like the pattern truncated right
after its first `**` (and in particular such a malformed pattern can match). -/
theorem malformed_wildcard_truncates (pattern url domain : String)
    (h : "**" ∈ splitSegs (extractPath pattern domain)) :
    matchUrlPattern pattern url domain =
      matchSegs ((splitSegs (extractPath pattern domain)).takeWhile (fun s => s ≠ "**") ++ ["**"])
        (splitSegs (normalizeUrlToPath url)) 0 [] := by
  have hp : extractPath pattern domain ≠ "/" := by
    intro hp
    rw [hp] at h
    have : splitSegs "/" = ([] : List String) := by decide
    rw [this] at h
    exact List.not_mem_nil _ h
  simp only [matchUrlPattern, if_neg hp]
  exact matchSegs_truncate _ _ 0 [] h

/-- Witness for the amended C2 at the malformed pattern `example.com/**/admin`. -/
theorem malformed_wildcard_truncates_witness :
    matchUrlPattern "example.com/**/admin" "https://example.com/anything" "example.com" =
      matchSegs ((splitSegs (extractPath "example.com/**/admin" "example.com")).takeWhile
          (fun s => s ≠ "**") ++ ["**"])
        (splitSegs (normalizeUrlToPath "https://example.com/anything")) 0 [] :=
  malformed_wildcard_truncates "example.com/**/admin" "https://example.com/anything" "example.com"
    (by decide)

theorem rank_filter_map_pair {α : Type} (f : α → MatchResult) (l : List α) :
    ((l.map (fun c => (c, f c))).filter (fun r => r.2.matched)).map (fun s => s.1) =
      l.filter (fun c => (f c).matched) := by
  induction l with
  | nil => rfl
  | cons a l ih =>
    by_cases h : (f a).matched = true <;> simp [List.filter_cons, h, ih]

/-- C3 — `rankConfigsByUrl` returns exactly the records whose pattern matches
the URL (as a permutation of the match-filtered input, so no match is dropped
and no non-match kept), sorted by non-increasing match score. -/
theorem rankConfigsByUrl_filter_sorted {α : Type} (pat : α → String) (configs : List α)
    (url domain : String) :
    List.Perm (rankConfigsByUrl pat configs url domain)
      (configs.filter (fun c => (matchUrlPattern (pat c) url domain).matched)) ∧
    List.Sorted
      (fun a b => (matchUrlPattern (pat b) url domain).score ≤ (matchUrlPattern (pat a) url domain).score)
      (rankConfigsByUrl pat configs url domain) := by
  haveI : IsTotal (α × MatchResult) (fun a b => b.2.score ≤ a.2.score) :=
    ⟨fun a b => le_total b.2.score a.2.score⟩
  haveI : IsTrans (α × MatchResult) (fun a b => b.2.score ≤ a.2.score) :=
    ⟨fun _ _ _ hab hbc => le_trans hbc hab⟩
  have key : rankConfigsByUrl pat configs url domain =
      (List.insertionSort (fun (a b : α × MatchResult) => b.2.score ≤ a.2.score)
        ((configs.map (fun c => (c, matchUrlPattern (pat c) url domain))).filter
          (fun r => r.2.matched))).map (fun s => s.1) := rfl
  have hperm := List.perm_insertionSort (fun (a b : α × MatchResult) => b.2.score ≤ a.2.score)
    ((configs.map (fun c => (c, matchUrlPattern (pat c) url domain))).filter
      (fun r => r.2.matched))
  constructor
  · rw [key]
    have h1 := hperm.map (fun s : α × MatchResult => s.1)
    have h2 := rank_filter_map_pair (fun c => matchUrlPattern (pat c) url domain) configs
    rw [h2] at h1
    exact h1
  · have hsorted := List.sorted_insertionSort
      (fun (a b : α × MatchResult) => b.2.score ≤ a.2.score)
      ((configs.map (fun c => (c, matchUrlPattern (pat c) url domain))).filter
        (fun r => r.2.matched))
    have hmem : ∀ x ∈ List.insertionSort (fun (a b : α × MatchResult) => b.2.score ≤ a.2.score)
        ((configs.map (fun c => (c, matchUrlPattern (pat c) url domain))).filter
          (fun r => r.2.matched)),
        x.2 = matchUrlPattern (pat x.1) url domain := by
      intro x hx
      have hx' := hperm.mem_iff.mp hx
      have hx'' := (List.mem_filter.mp hx').1
      obtain ⟨c, _, hc⟩ := List.mem_map.mp hx''
      rw [← hc]
    have hpw : (List.insertionSort (fun (a b : α × MatchResult) => b.2.score ≤ a.2.score)
        ((configs.map (fun c => (c, matchUrlPattern (pat c) url domain))).filter
          (fun r => r.2.matched))).Pairwise
        (fun a b => (matchUrlPattern (pat b.1) url domain).score ≤
          (matchUrlPattern (pat a.1) url domain).score) := by
      refine List.Pairwise.imp_of_mem ?_ hsorted
      intro a b ha hb hab
      rw [← hmem a ha, ← hmem b hb]
      exact hab
    rw [key]
    exact (List.pairwise_map).mpr hpw

-- ---------------------------------------------------------------------------
-- Template scanner and cross-reference theorems
-- ---------------------------------------------------------------------------

theorem scanTemplatesFuel_word_tokens (fuel : Nat) :
    ∀ cs tok, tok ∈ scanTemplatesFuel fuel cs → tok.data ≠ [] ∧ tok.data.all isWordChar = true := by
  induction fuel with
  | zero => intro cs tok h; simp [scanTemplatesFuel] at h
  | succ fuel ih =>
    intro cs tok h
    cases cs with
    | nil => simp [scanTemplatesFuel] at h
    | cons c cs' =>
      cases cs' with
      | nil => simp [scanTemplatesFuel] at h
      | cons c2 rest =>
        rw [scanTemplatesFuel] at h
        by_cases hc : c = '\x7b' ∧ c2 = '\x7b' ∧ rest.takeWhile isWordChar ≠ [] ∧
            (rest.drop (rest.takeWhile isWordChar).length).take 2 = ['\x7d', '\x7d']
        · rw [if_pos hc] at h
          cases List.mem_cons.mp h with
          | inl heq =>
            subst heq
            refine ⟨hc.2.2.1, ?_⟩
            rw [List.all_eq_true]
            intro x hx
            exact List.mem_takeWhile_imp hx
          | inr hmem => exact ih _ tok hmem
        · rw [if_neg hc] at h
          exact ih _ tok h

/-- C10 — the template scan only recognizes tokens made of word characters:
every token it reports is a nonempty all-word-character string, and a
`(({...}))`-style occurrence containing a non-word character (here
`user-id` in a step url) is never checked, so it causes no validation error
even though it is not an inputSchema property. -/
theorem template_scan_word_tokens :
    (∀ (value tok : String), tok ∈ scanTemplates value →
      tok.data ≠ [] ∧ tok.data.all isWordChar = true) ∧
    scanTemplates "\x7b\x7buser-id\x7d\x7d" = [] ∧
    crossRefIssues userIdTool = [] ∧ validateToolOk userIdTool = true := by
  refine ⟨?_, by decide, by decide, by decide⟩
  intro value tok h
  exact scanTemplatesFuel_word_tokens _ _ tok h

/-- Witness for C10's general part: the scanned token of `((.. foo ..))` is a
nonempty word-character string. -/
theorem template_scan_word_tokens_witness :
    ("foo" : String).data ≠ [] ∧ ("foo" : String).data.all isWordChar = true :=
  template_scan_word_tokens.1 "\x7b\x7bfoo\x7d\x7d" "foo" (by decide)

/-- C4 counterexample — with `inputSchema.properties` empty, a step url
containing the template `((foo))` produces no issue at all and the tool is
accepted, contradicting the claim that the check applies in particular when
the property set is empty. -/
theorem empty_props_template_not_checked :
    scanTemplates "\x7b\x7bfoo\x7d\x7d" = ["foo"] ∧
    schemaProps emptyPropsTool = [] ∧
    crossRefIssues emptyPropsTool = [] ∧
    validateToolOk emptyPropsTool = true := by
  decide

theorem contains_eq_false_of_not_mem {l : List String} {a : String} (h : a ∉ l) :
    l.contains a = false := by
  induction l with
  | nil => rfl
  | cons b l ih =>
    have hab : a ≠ b := fun e => h (e ▸ List.mem_cons_self b l)
    have h' : a ∉ l := fun hm => h (List.mem_cons_of_mem b hm)
    simp only [List.contains_cons, Bool.or_eq_false_iff]
    exact ⟨beq_eq_false_iff_ne.mpr hab, ih h'⟩

theorem mem_checkTemplates {v : String} {props : List String} {tok : String}
    (path : List PathElem) (htok : tok ∈ scanTemplates v) (hnot : tok ∉ props) :
    (⟨path, templateMsg tok props⟩ : Issue) ∈ checkTemplates v props path := by
  rw [checkTemplates]
  refine List.mem_map.mpr ⟨tok, ?_, rfl⟩
  refine List.mem_filter.mpr ⟨htok, ?_⟩
  rw [contains_eq_false_of_not_mem hnot]
  rfl

theorem mem_withIdx {β : Type} (xs : List β) :
    ∀ (k i : Nat) (x : β), xs.get? i = some x → (k + i, x) ∈ withIdx k xs := by
  induction xs with
  | nil => intro k i x h; simp [List.get?] at h
  | cons y ys ih =>
    intro k i x h
    cases i with
    | zero =>
      rw [List.get?] at h
      injection h with h
      subst h
      simp [withIdx]
    | succ i =>
      rw [List.get?] at h
      have := ih (k + 1) i x h
      rw [withIdx]
      refine List.mem_cons_of_mem _ ?_
      have harith : k + (i + 1) = (k + 1) + i := by omega
      rw [harith]
      exact this

theorem mem_checkStepTemplates {props : List String} {i : Nat} {st : ActionStep}
    {f : StepField} {v tok : String} (hv : stepFieldGet f st = some v)
    (htok : tok ∈ scanTemplates v) (hnot : tok ∉ props) :
    (⟨[.str "execution", .str "steps", .idx i, .str (stepFieldName f)],
      templateMsg tok props⟩ : Issue) ∈ checkStepTemplates props i st := by
  rw [checkStepTemplates]
  cases f with
  | url =>
    refine List.mem_append_left _ (List.mem_append_left _ ?_)
    rw [stepFieldGet] at hv
    rw [hv]
    exact mem_checkTemplates _ htok hnot
  | value =>
    refine List.mem_append_left _ (List.mem_append_right _ ?_)
    rw [stepFieldGet] at hv
    rw [hv]
    exact mem_checkTemplates _ htok hnot
  | selector =>
    refine List.mem_append_right _ ?_
    rw [stepFieldGet] at hv
    rw [hv]
    exact mem_checkTemplates _ htok hnot

/-- C4 amended — provided `inputSchema.properties` is nonempty, every
`((token))`-style template occurrence (as recognized by the scan) in a step's
url, value or selector whose token is not a property key yields an issue
naming the literal template text and its location (step index and field
name), and the tool is rejected.  (When the property set is empty the scan is
skipped entirely and no such error is raised.) -/
theorem template_unknown_token_rejected (t : ToolDescriptor) (ex : ExecutionDescriptor)
    (steps : List ActionStep) (i : Nat) (st : ActionStep) (f : StepField) (v tok : String)
    (hex : t.execution = some ex) (hsteps : ex.steps = some steps)
    (hst : steps.get? i = some st) (hv : stepFieldGet f st = some v)
    (htok : tok ∈ scanTemplates v) (hne : schemaProps t ≠ [])
    (hnot : tok ∉ schemaProps t) :
    (⟨[.str "execution", .str "steps", .idx i, .str (stepFieldName f)],
      templateMsg tok (schemaProps t)⟩ : Issue) ∈ crossRefIssues t ∧
    validateToolOk t = false := by
  have hmem : (⟨[.str "execution", .str "steps", .idx i, .str (stepFieldName f)],
      templateMsg tok (schemaProps t)⟩ : Issue) ∈ templateIssues t := by
    have hlen : (schemaProps t).length > 0 := List.length_pos.mpr hne
    simp only [templateIssues, hex, hsteps, if_pos hlen]
    refine List.mem_flatten.mpr ⟨checkStepTemplates (schemaProps t) i st, ?_, ?_⟩
    · exact List.mem_map.mpr ⟨(i, st), by simpa using mem_withIdx steps 0 i st hst, rfl⟩
    · exact mem_checkStepTemplates hv htok hnot
  have hmem' : (⟨[.str "execution", .str "steps", .idx i, .str (stepFieldName f)],
      templateMsg tok (schemaProps t)⟩ : Issue) ∈ crossRefIssues t :=
    List.mem_append_right _ hmem
  refine ⟨hmem', ?_⟩
  have hne' : crossRefIssues t ≠ [] := List.ne_nil_of_mem hmem'
  rw [validateToolOk]
  cases hcr : crossRefIssues t with
  | nil => exact absurd hcr hne'
  | cons a l => simp [List.isEmpty]

/-- Witness for the amended C4: a tool with property `q` and a step url
containing `((foo))` gets the template issue and is rejected. -/
theorem template_unknown_token_rejected_witness :
    (⟨[.str "execution", .str "steps", .idx 0, .str (stepFieldName .url)],
      templateMsg "foo" (schemaProps unknownTokTool)⟩ : Issue) ∈ crossRefIssues unknownTokTool ∧
    validateToolOk unknownTokTool = false :=
  template_unknown_token_rejected unknownTokTool
    { selector := "#f", autosubmit := false, steps := some [.navigate "\x7b\x7bfoo\x7d\x7d"] }
    [.navigate "\x7b\x7bfoo\x7d\x7d"] 0 (.navigate "\x7b\x7bfoo\x7d\x7d") .url
    "\x7b\x7bfoo\x7d\x7d" "foo" rfl rfl rfl rfl (by decide) (by decide) (by decide)

-- ---------------------------------------------------------------------------
-- Duplicate tool names (uniqueToolNames)
-- ---------------------------------------------------------------------------

theorem mem_of_contains_eq_true {l : List String} {a : String} (h : l.contains a = true) :
    a ∈ l := by
  induction l with
  | nil => simp [List.contains] at h
  | cons b l ih =>
    rw [List.contains_cons] at h
    rcases Bool.or_eq_true_iff.mp h with h1 | h2
    · exact (beq_iff_eq.mp h1) ▸ List.mem_cons_self b l
    · exact List.mem_cons_of_mem b (ih h2)

theorem contains_eq_true_of_mem {l : List String} {a : String} (h : a ∈ l) :
    l.contains a = true := by
  induction l with
  | nil => exact absurd h (List.not_mem_nil a)
  | cons b l ih =>
    rw [List.contains_cons]
    rcases List.mem_cons.mp h with h1 | h2
    · rw [beq_iff_eq.mpr h1]; rfl
    · rw [ih h2, Bool.or_true]

theorem uniqueIssuesGo_mem (ts : List ToolDescriptor) :
    ∀ seen i j t, ts.get? j = some t →
      (t.name ∈ seen ∨ ∃ k t', k < j ∧ ts.get? k = some t' ∧ t'.name = t.name) →
      (⟨[.idx (i + j), .str "name"], dupMsg t.name⟩ : Issue) ∈ uniqueIssuesGo ts seen i := by
  induction ts with
  | nil => intro seen i j t h _; simp [List.get?] at h
  | cons t0 ts ih =>
    intro seen i j t hj hcond
    cases j with
    | zero =>
      rw [List.get?] at hj
      injection hj with hj
      subst hj
      have hseen : t0.name ∈ seen := by
        rcases hcond with h | ⟨k, t', hk, _, _⟩
        · exact h
        · omega
      rw [uniqueIssuesGo, if_pos (contains_eq_true_of_mem hseen)]
      simp
    | succ j =>
      rw [List.get?] at hj
      rw [uniqueIssuesGo]
      refine List.mem_append_right _ ?_
      have harith : i + (j + 1) = (i + 1) + j := by omega
      rw [harith]
      refine ih (t0.name :: seen) (i + 1) j t hj ?_
      rcases hcond with h | ⟨k, t', hk, hgetk, hnamek⟩
      · exact Or.inl (List.mem_cons_of_mem _ h)
      · cases k with
        | zero =>
          rw [List.get?] at hgetk
          injection hgetk with hgetk
          subst hgetk
          exact Or.inl (hnamek ▸ List.mem_cons_self _ _)
        | succ k =>
          rw [List.get?] at hgetk
          exact Or.inr ⟨k, t', by omega, hgetk, hnamek⟩

theorem uniqueIssuesGo_char (ts : List ToolDescriptor) :
    ∀ seen i issue, issue ∈ uniqueIssuesGo ts seen i →
      ∃ j t, ts.get? j = some t ∧
        issue = ⟨[.idx (i + j), .str "name"], dupMsg t.name⟩ ∧
        (t.name ∈ seen ∨ ∃ k t', k < j ∧ ts.get? k = some t' ∧ t'.name = t.name) := by
  induction ts with
  | nil => intro seen i issue h; simp [uniqueIssuesGo] at h
  | cons t0 ts ih =>
    intro seen i issue h
    rw [uniqueIssuesGo] at h
    rcases List.mem_append.mp h with h1 | h2
    · by_cases hc : seen.contains t0.name = true
      · rw [if_pos hc] at h1
        have heq : issue = ⟨[.idx i, .str "name"], dupMsg t0.name⟩ := by simpa using h1
        exact ⟨0, t0, rfl, by simpa using heq, Or.inl (mem_of_contains_eq_true hc)⟩
      · rw [if_neg hc] at h1
        simp at h1
    · obtain ⟨j, t, hget, heq, hcond⟩ := ih (t0.name :: seen) (i + 1) issue h2
      have harith : (i + 1) + j = i + (j + 1) := by omega
      refine ⟨j + 1, t, hget, by rw [heq, harith], ?_⟩
      rcases hcond with hmem | ⟨k, t', hk, hgetk, hnamek⟩
      · rcases List.mem_cons.mp hmem with h0 | hseen
        · exact Or.inr ⟨0, t0, by omega, rfl, h0.symm⟩
        · exact Or.inl hseen
      · exact Or.inr ⟨k + 1, t', by omega, hgetk, hnamek⟩

/-- C5 amended — every occurrence of a duplicated tool name AFTER the first is
reported with its index (and the config is rejected), but the first
occurrence of the duplicated name is never flagged: no issue carries its
index. -/
theorem duplicate_names_reported (tools : List ToolDescriptor) :
    (∀ i j ti tj, tools.get? i = some ti → tools.get? j = some tj → i < j →
      ti.name = tj.name →
      (⟨[.idx j, .str "name"], dupMsg tj.name⟩ : Issue) ∈ uniqueToolNamesIssues tools ∧
      uniqueToolNamesIssues tools ≠ []) ∧
    (∀ j tj, tools.get? j = some tj →
      (∀ i ti, tools.get? i = some ti → i < j → ti.name ≠ tj.name) →
      ∀ issue, issue ∈ uniqueToolNamesIssues tools → issue.path ≠ [.idx j, .str "name"]) := by
  constructor
  · intro i j ti tj hi hj hij hname
    have hmem := uniqueIssuesGo_mem tools [] 0 j tj hj (Or.inr ⟨i, ti, hij, hi, hname⟩)
    rw [Nat.zero_add] at hmem
    exact ⟨hmem, List.ne_nil_of_mem hmem⟩
  · intro j tj hj hfirst issue hmem hpath
    obtain ⟨j', t', hget', heq, hcond⟩ := uniqueIssuesGo_char tools [] 0 issue hmem
    rw [heq] at hpath
    simp only [Issue.mk.injEq, List.cons.injEq, PathElem.idx.injEq] at hpath
    have hj' : j' = j := by omega
    subst hj'
    rw [hget'] at hj
    injection hj with hj
    subst hj
    rcases hcond with habs | ⟨k, t'', hk, hgetk, hnamek⟩
    · exact List.not_mem_nil _ habs
    · exact hfirst k t'' hgetk hk hnamek

/-- C5 counterexample — for two identically named tools, the issue list
contains only the second occurrence's index (index 1); no issue flags the
first occurrence at index 0, contradicting the claim that every duplicate
occurrence, including the first, is reported. -/
theorem first_duplicate_not_flagged :
    uniqueToolNamesIssues [dupTool, dupTool] =
      [⟨[.idx 1, .str "name"], dupMsg "t"⟩] := by
  decide

/-- Witness for the amended C5 on `[dupTool, dupTool]`. -/
theorem duplicate_names_reported_witness :
    (⟨[.idx 1, .str "name"], dupMsg "t"⟩ : Issue) ∈ uniqueToolNamesIssues [dupTool, dupTool] ∧
    uniqueToolNamesIssues [dupTool, dupTool] ≠ [] :=
  (duplicate_names_reported [dupTool, dupTool]).1 0 1 dupTool dupTool rfl rfl (by decide) rfl

-- ---------------------------------------------------------------------------
-- Condition-step nesting depth (C9)
-- ---------------------------------------------------------------------------

theorem stepOk_nestCond : ∀ n, stepOk (nestCond n) = true := by
  intro n
  induction n with
  | zero => decide
  | succ n ih => simp [nestCond, stepOk, stepsOk, ih, lenOk]

theorem stepDepth_nestCond : ∀ n, stepDepth (nestCond n) = n + 1 := by
  intro n
  induction n with
  | zero => decide
  | succ n ih =>
    rw [nestCond, stepDepth, stepsDepth, stepsDepth, ih]
    omega

theorem validateToolOk_toolNest (n : Nat) : validateToolOk (toolNest n) = true := by
  have hcross : crossRefIssues (toolNest n) = [] := by
    rw [crossRefIssues]
    have h1 : fieldIssues (toolNest n) = [] := rfl
    have h2 : templateIssues (toolNest n) = [] := rfl
    rw [h1, h2]
    rfl
  rw [validateToolOk, hcross]
  have hstruct : toolStructOk (toolNest n) = true := by
    simp [toolStructOk, toolNest, lenOk, optLenOk, inputSchemaOk, executionOk, stepsOk,
      stepOk_nestCond n]
  rw [hstruct]
  rfl

theorem toolCondDepth_toolNest (n : Nat) : toolCondDepth (toolNest n) = n + 1 := by
  rw [toolCondDepth]
  show stepsDepth [nestCond n] = n + 1
  rw [stepsDepth, stepsDepth, stepDepth_nestCond]
  omega

/-- C9 counterexample — there is no depth bound: for every proposed bound D,
the tool `toolNest (D+1)` nests conditions deeper than D yet passes
validation, refuting the claim that some fixed bound D exists past which
validateTool rejects. -/
theorem no_condition_depth_bound :
    ¬ ∃ D : Nat, ∀ t : ToolDescriptor, toolCondDepth t > D → validateToolOk t = false := by
  rintro ⟨D, hD⟩
  have h1 := hD (toolNest (D + 1)) (by rw [toolCondDepth_toolNest]; omega)
  rw [validateToolOk_toolNest] at h1
  exact absurd h1 (by decide)

/-- C9 amended — validation bounds each `then`/`else` array to at most 20
entries (a 21-entry array is rejected), but enforces no nesting-depth bound:
for every n there is an accepted candidate of condition depth n+1. -/
theorem condition_depth_unbounded :
    (∀ n, validateToolOk (toolNest n) = true ∧ toolCondDepth (toolNest n) = n + 1) ∧
    stepOk (.condition "s" .visible (List.replicate 21 (.click "s")) none) = false := by
  constructor
  · intro n
    exact ⟨validateToolOk_toolNest n, toolCondDepth_toolNest n⟩
  · decide

-- ---------------------------------------------------------------------------
-- urlPattern normalization (C8)
-- ---------------------------------------------------------------------------

theorem head?_dropWhile_bool {α : Type} (p : α → Bool) :
    ∀ (l : List α) c, (l.dropWhile p).head? = some c → p c = false := by
  intro l
  induction l with
  | nil => intro c h; simp [List.dropWhile] at h
  | cons a l ih =>
    intro c h
    rw [List.dropWhile_cons] at h
    by_cases hp : p a = true
    · rw [if_pos hp] at h
      exact ih c h
    · rw [if_neg hp] at h
      rw [List.head?] at h
      injection h with h
      subst h
      exact Bool.not_eq_true _ ▸ Bool.of_not_eq_true hp

theorem endsWithSlash_stripTrailingSlashes (s : String) :
    endsWithSlash (stripTrailingSlashes s) = false := by
  rw [endsWithSlash, stripTrailingSlashes]
  rw [decide_eq_false_iff_not]
  show ¬ (s.data.reverse.dropWhile (fun c => c = '/')).reverse.getLast? = some '/'
  rw [List.getLast?_reverse]
  intro hh
  have := head?_dropWhile_bool (fun c => decide (c = '/')) (s.data.reverse) '/' hh
  simp at this

/-- C8 counterexample — `"https://"` is accepted by the urlPattern rule and
normalizes to itself: the result keeps both its scheme marker and its
trailing slash.  `"http://http://x"` normalizes to `"http://x"`, which still
carries a scheme marker, since only one leading marker is stripped. -/
theorem scheme_only_pattern_kept :
    urlPatternField "https://" = some "https://" ∧
    startsWithScheme "https://" = true ∧
    endsWithSlash "https://" = true ∧
    urlPatternField "http://http://x" = some "http://x" ∧
    startsWithScheme "http://x" = true := by
  decide

/-- C8 amended — for every accepted urlPattern input, the normalization
strips one leading `http(s)://` marker and all trailing slashes; when that
leaves a nonempty string, that string is the stored pattern and it ends with
no slash; when it leaves the empty string, the input is stored unchanged,
scheme marker or trailing slash included. -/
theorem normalizeUrlPattern_strips (val out : String)
    (h : urlPatternField val = some out) :
    (stripTrailingSlashes (stripSchemeOnce val) ≠ "" →
      out = stripTrailingSlashes (stripSchemeOnce val) ∧ endsWithSlash out = false) ∧
    (stripTrailingSlashes (stripSchemeOnce val) = "" → out = val) := by
  have hout : out = normalizeUrlPattern val := by
    rw [urlPatternField] at h
    by_cases hc : 1 ≤ val.data.length ∧ val.data.length ≤ 2048
    · rw [if_pos hc] at h
      injection h with h
      exact h.symm
    · rw [if_neg hc] at h
      exact absurd h (by simp)
  constructor
  · intro hne
    have hnorm : normalizeUrlPattern val = stripTrailingSlashes (stripSchemeOnce val) := by
      simp [normalizeUrlPattern, hne]
    rw [hout, hnorm]
    exact ⟨rfl, endsWithSlash_stripTrailingSlashes _⟩
  · intro heq
    rw [hout]
    simp [normalizeUrlPattern, heq]

/-- Witness for the amended C8 at `https://example.com/`. -/
theorem normalizeUrlPattern_strips_witness :
    ("example.com" : String) = stripTrailingSlashes (stripSchemeOnce "https://example.com/") ∧
    endsWithSlash "example.com" = false :=
  (normalizeUrlPattern_strips "https://example.com/" "example.com" (by decide)).1 (by decide)

-- ---------------------------------------------------------------------------
-- Merge engine lemmas (C6, C7)
-- ---------------------------------------------------------------------------

theorem mapSet_any_iff {α : Type} (m : List (String × α)) (k : String) :
    m.any (fun p => p.1 = k) = true ↔ k ∈ m.map (fun p => p.1) := by
  rw [List.any_eq_true]
  constructor
  · rintro ⟨p, hp, hpk⟩
    exact List.mem_map.mpr ⟨p, hp, of_decide_eq_true hpk⟩
  · intro h
    obtain ⟨p, hp, hpk⟩ := List.mem_map.mp h
    exact ⟨p, hp, decide_eq_true hpk⟩

theorem mapSet_of_not_mem {α : Type} {m : List (String × α)} {k : String} (v : α)
    (h : k ∉ m.map (fun p => p.1)) : mapSet m k v = m ++ [(k, v)] := by
  rw [mapSet, if_neg]
  intro hc
  exact h ((mapSet_any_iff m k).mp hc)

theorem mapSet_of_mem {α : Type} {m : List (String × α)} {k : String} (v : α)
    (h : k ∈ m.map (fun p => p.1)) :
    mapSet m k v = m.map (fun p => if p.1 = k then (k, v) else p) := by
  rw [mapSet, if_pos ((mapSet_any_iff m k).mpr h)]

theorem keys_map_replace {α : Type} (m : List (String × α)) (k : String) (v : α) :
    (m.map (fun p => if p.1 = k then (k, v) else p)).map (fun p => p.1) =
      m.map (fun p => p.1) := by
  rw [List.map_map]
  refine List.map_congr_left ?_
  intro p _
  by_cases hp : p.1 = k
  · simp [hp]
  · simp [hp]

theorem foldl_mapSet_disjoint {α : Type} (nm : α → String) :
    ∀ (ts : List α) (m : List (String × α)),
      (∀ t ∈ ts, nm t ∉ m.map (fun p => p.1)) → (ts.map nm).Nodup →
      ts.foldl (fun m t => mapSet m (nm t) t) m = m ++ ts.map (fun t => (nm t, t)) := by
  intro ts
  induction ts with
  | nil => intro m _ _; simp
  | cons t ts ih =>
    intro m hdis hnd
    rw [List.map_cons, List.nodup_cons] at hnd
    obtain ⟨hnotin, hnd'⟩ := hnd
    rw [List.foldl_cons, mapSet_of_not_mem t (hdis t (List.mem_cons_self t ts))]
    have hdis' : ∀ u ∈ ts, nm u ∉ (m ++ [(nm t, t)]).map (fun p => p.1) := by
      intro u hu hmem
      rw [List.map_append] at hmem
      rcases List.mem_append.mp hmem with h | h
      · exact hdis u (List.mem_cons_of_mem t hu) h
      · simp at h
        exact hnotin (h ▸ List.mem_map.mpr ⟨u, hu, rfl⟩)
    rw [ih (m ++ [(nm t, t)]) hdis' hnd']
    simp

theorem overridePair_none {α : Type} {nm : α → String} {ts : List α} {p : String × α}
    (h : ts.find? (fun u => decide (nm u = p.1)) = none) : overridePair nm ts p = p := by
  rw [overridePair, h]

theorem overridePair_some {α : Type} {nm : α → String} {ts : List α} {p : String × α} {u : α}
    (h : ts.find? (fun u => decide (nm u = p.1)) = some u) :
    overridePair nm ts p = (p.1, u) := by
  rw [overridePair, h]

theorem find?_eq_none_of_not_mem {α : Type} (nm : α → String) (l : List α) (x : String)
    (h : x ∉ l.map nm) : l.find? (fun u => decide (nm u = x)) = none := by
  rw [List.find?_eq_none]
  intro u hu hc
  exact h (of_decide_eq_true hc ▸ List.mem_map.mpr ⟨u, hu, rfl⟩)

theorem find?_eq_some_self {α : Type} (nm : α → String) (l : List α)
    (hl : (l.map nm).Nodup) (u : α) (hu : u ∈ l) :
    l.find? (fun v => decide (nm v = nm u)) = some u := by
  induction l with
  | nil => exact absurd hu (List.not_mem_nil u)
  | cons v l ih =>
    rw [List.map_cons, List.nodup_cons] at hl
    obtain ⟨hnv, hl'⟩ := hl
    rcases List.mem_cons.mp hu with h | h
    · subst h
      simp [List.find?_cons]
    · have hne : nm v ≠ nm u := by
        intro e
        exact hnv (e ▸ List.mem_map.mpr ⟨u, h, rfl⟩)
      rw [List.find?_cons, decide_eq_false hne]
      exact ih hl' h

theorem filter_name_eq_single {α : Type} (nm : α → String) (l : List α)
    (hl : (l.map nm).Nodup) (u : α) (hu : u ∈ l) :
    l.filter (fun t => decide (nm t = nm u)) = [u] := by
  induction l with
  | nil => exact absurd hu (List.not_mem_nil u)
  | cons v l ih =>
    rw [List.map_cons, List.nodup_cons] at hl
    obtain ⟨hnv, hl'⟩ := hl
    rcases List.mem_cons.mp hu with h | h
    · subst h
      rw [List.filter_cons, if_pos (by simp)]
      have hempty : l.filter (fun t => decide (nm t = nm u)) = [] := by
        rw [List.filter_eq_nil_iff]
        intro t ht hc
        exact hnv (of_decide_eq_true hc ▸ List.mem_map.mpr ⟨t, ht, rfl⟩)
      rw [hempty]
    · have hne : nm v ≠ nm u := by
        intro e
        exact hnv (e ▸ List.mem_map.mpr ⟨u, h, rfl⟩)
      rw [List.filter_cons, if_neg (by simpa using hne)]
      exact ih hl' h

theorem foldl_mapSet_override {α : Type} (nm : α → String) :
    ∀ (ts : List α) (m : List (String × α)),
      (ts.map nm).Nodup → (m.map (fun p => p.1)).Nodup →
      ts.foldl (fun m t => mapSet m (nm t) t) m =
        m.map (overridePair nm ts) ++
        (ts.filter (fun u => !(m.map (fun p => p.1)).contains (nm u))).map
          (fun u => (nm u, u)) := by
  intro ts
  induction ts with
  | nil =>
    intro m _ _
    have h1 : m.map (overridePair nm []) = m := by
      refine List.map_congr_left ?_ |>.trans (List.map_id m)
      intro p _
      rfl
    simp [h1]
  | cons t ts ih =>
    intro m hnd hmk
    rw [List.map_cons, List.nodup_cons] at hnd
    obtain ⟨hnotin, hnd'⟩ := hnd
    rw [List.foldl_cons]
    have hfnone : ts.find? (fun u => decide (nm u = nm t)) = none :=
      find?_eq_none_of_not_mem nm ts (nm t) hnotin
    by_cases hk : nm t ∈ m.map (fun p => p.1)
    · rw [mapSet_of_mem t hk]
      have hkeys := keys_map_replace m (nm t) t
      rw [ih _ hnd' (by rw [hkeys]; exact hmk)]
      have hpart1 : (m.map (fun p => if p.1 = nm t then (nm t, t) else p)).map
          (overridePair nm ts) = m.map (overridePair nm (t :: ts)) := by
        rw [List.map_map]
        refine List.map_congr_left ?_
        intro p _
        show overridePair nm ts (if p.1 = nm t then (nm t, t) else p) =
          overridePair nm (t :: ts) p
        by_cases hpk : p.1 = nm t
        · rw [if_pos hpk]
          have hl : overridePair nm ts (nm t, t) = (nm t, t) := overridePair_none hfnone
          have hr : overridePair nm (t :: ts) p = (p.1, t) :=
            overridePair_some (List.find?_cons_of_pos _ (decide_eq_true hpk.symm))
          rw [hl, hr, hpk]
        · rw [if_neg hpk]
          have hr : overridePair nm (t :: ts) p = overridePair nm ts p := by
            rw [overridePair, overridePair,
              List.find?_cons_of_neg _ (fun hc => hpk (of_decide_eq_true hc).symm)]
          exact hr.symm
      have hpart2 : ts.filter (fun u =>
            !((m.map (fun p => if p.1 = nm t then (nm t, t) else p)).map
              (fun p => p.1)).contains (nm u)) =
          ts.filter (fun u => !(m.map (fun p => p.1)).contains (nm u)) := by
        refine List.filter_congr ?_
        intro u _
        rw [hkeys]
      have hfilt : (t :: ts).filter (fun u => !(m.map (fun p => p.1)).contains (nm u)) =
          ts.filter (fun u => !(m.map (fun p => p.1)).contains (nm u)) := by
        rw [List.filter_cons, if_neg]
        rw [contains_eq_true_of_mem hk]
        simp
      rw [hpart1, hpart2, hfilt]
    · rw [mapSet_of_not_mem t hk]
      have hmk' : ((m ++ [(nm t, t)]).map (fun p => p.1)).Nodup := by
        rw [List.map_append, List.nodup_append]
        refine ⟨hmk, by simp, ?_⟩
        intro x hx hx'
        simp at hx'
        exact hk (hx' ▸ hx)
      rw [ih _ hnd' hmk']
      have hov : overridePair nm ts (nm t, t) = (nm t, t) := overridePair_none hfnone
      have hpart1 : m.map (overridePair nm ts) = m.map (overridePair nm (t :: ts)) := by
        refine List.map_congr_left ?_
        intro p hp
        have hpk : p.1 ≠ nm t := by
          intro e
          exact hk (e ▸ List.mem_map.mpr ⟨p, hp, rfl⟩)
        have hr : overridePair nm (t :: ts) p = overridePair nm ts p := by
          rw [overridePair, overridePair,
            List.find?_cons_of_neg _ (fun hc => hpk (of_decide_eq_true hc).symm)]
        exact hr.symm
      have hpart2 : ts.filter (fun u =>
            !((m ++ [(nm t, t)]).map (fun p => p.1)).contains (nm u)) =
          ts.filter (fun u => !(m.map (fun p => p.1)).contains (nm u)) := by
        refine List.filter_congr ?_
        intro u hu
        have hne : nm u ≠ nm t := by
          intro e
          exact hnotin (e ▸ List.mem_map.mpr ⟨u, hu, rfl⟩)
        rw [List.map_append]
        by_cases hm : nm u ∈ m.map (fun p => p.1)
        · rw [contains_eq_true_of_mem hm,
            contains_eq_true_of_mem (List.mem_append_left _ hm)]
        · rw [contains_eq_false_of_not_mem hm, contains_eq_false_of_not_mem]
          intro hmem
          rcases List.mem_append.mp hmem with h | h
          · exact hm h
          · simp at h
            exact hne h
      have hfilt : (t :: ts).filter (fun u => !(m.map (fun p => p.1)).contains (nm u)) =
          t :: ts.filter (fun u => !(m.map (fun p => p.1)).contains (nm u)) := by
        rw [List.filter_cons, if_pos]
        rw [contains_eq_false_of_not_mem hk]
        rfl
      rw [List.map_append]
      simp only [List.map_cons, List.map_nil]
      rw [hov, hpart1, hpart2, hfilt]
      simp

theorem overrideVal_none {α : Type} {nm : α → String} {inc : List α} {t : α}
    (h : inc.find? (fun u => decide (nm u = nm t)) = none) : overrideVal nm inc t = t := by
  rw [overrideVal, h]

theorem overrideVal_some {α : Type} {nm : α → String} {inc : List α} {t u : α}
    (h : inc.find? (fun u => decide (nm u = nm t)) = some u) : overrideVal nm inc t = u := by
  rw [overrideVal, h]

theorem overrideVal_name {α : Type} (nm : α → String) (inc : List α) (t : α) :
    nm (overrideVal nm inc t) = nm t := by
  cases hf : inc.find? (fun u => decide (nm u = nm t)) with
  | none => rw [overrideVal_none hf]
  | some u =>
    rw [overrideVal_some hf]
    have hp := List.find?_some hf
    exact of_decide_eq_true (show decide (nm u = nm t) = true from hp)

theorem mergeTools_eq {α : Type} (nm : α → String) (ex inc : List α)
    (he : (ex.map nm).Nodup) (hi : (inc.map nm).Nodup) :
    mergeTools nm ex inc =
      ex.map (overrideVal nm inc) ++
      inc.filter (fun u => decide (nm u ∉ ex.map nm)) := by
  have hkeysSeed : ((ex.map (fun t => (nm t, t))).map (fun p => p.1)).Nodup := by
    rw [List.map_map]
    exact he
  have hseed : ex.foldl (fun m t => mapSet m (nm t) t) [] = ex.map (fun t => (nm t, t)) := by
    have := foldl_mapSet_disjoint nm ex [] (by simp) he
    simpa using this
  have hfold := foldl_mapSet_override nm inc (ex.map (fun t => (nm t, t))) hi hkeysSeed
  have hsnd : ∀ (L : List α), (L.map (fun u => (nm u, u))).map (fun p => p.2) = L := by
    intro L
    induction L with
    | nil => rfl
    | cons a l ih => simp [List.map_cons, ih]
  have hto : ∀ (L : List α) (t : α), t ∈ L →
      ((overridePair nm inc) ((nm t, t) : String × α)).2 = overrideVal nm inc t := by
    intro L t _
    cases hf : inc.find? (fun u => decide (nm u = nm t)) with
    | none => rw [overridePair_none hf, overrideVal_none hf]
    | some u => rw [overridePair_some hf, overrideVal_some hf]
  show (inc.foldl (fun m t => mapSet m (nm t) t)
      (ex.foldl (fun m t => mapSet m (nm t) t) [])).map (fun p => p.2) = _
  rw [hseed, hfold, List.map_append]
  have hpart1 : ((ex.map (fun t => (nm t, t))).map (overridePair nm inc)).map (fun p => p.2) =
      ex.map (overrideVal nm inc) := by
    rw [List.map_map, List.map_map]
    exact List.map_congr_left (hto ex)
  have hpart2 : ((inc.filter (fun u =>
        !((ex.map (fun t => (nm t, t))).map (fun p => p.1)).contains (nm u))).map
        (fun u => (nm u, u))).map (fun p => p.2) =
      inc.filter (fun u => decide (nm u ∉ ex.map nm)) := by
    rw [hsnd]
    refine List.filter_congr ?_
    intro u _
    rw [List.map_map]
    show (!(ex.map nm).contains (nm u)) = decide (nm u ∉ ex.map nm)
    by_cases hm : nm u ∈ ex.map nm
    · rw [contains_eq_true_of_mem hm, decide_eq_false (by simpa using hm)]
      rfl
    · rw [contains_eq_false_of_not_mem hm, decide_eq_true hm]
      rfl
  rw [hpart1, hpart2]

/-- C6 — `mergeTools` keeps every existing tool whose name is absent from the
incoming list unchanged, replaces every name present in both by the incoming
entry (which is then the unique entry of that name), appends names present
only in the incoming list exactly once after the existing entries, and never
removes a name present in the existing list. -/
theorem mergeTools_spec {α : Type} (nm : α → String) (ex inc : List α)
    (he : (ex.map nm).Nodup) (hi : (inc.map nm).Nodup) :
    (∀ t ∈ ex, nm t ∉ inc.map nm → t ∈ mergeTools nm ex inc) ∧
    (∀ u ∈ inc, nm u ∈ ex.map nm →
      u ∈ mergeTools nm ex inc ∧
      ∀ t ∈ mergeTools nm ex inc, nm t = nm u → t = u) ∧
    (∀ u ∈ inc, nm u ∉ ex.map nm →
      (mergeTools nm ex inc).filter (fun t => decide (nm t = nm u)) = [u]) ∧
    (mergeTools nm ex inc =
      ex.map (overrideVal nm inc) ++ inc.filter (fun u => decide (nm u ∉ ex.map nm))) ∧
    (∀ t ∈ ex, nm t ∈ (mergeTools nm ex inc).map nm) := by
  have heq := mergeTools_eq nm ex inc he hi
  refine ⟨?_, ?_, ?_, heq, ?_⟩
  · intro t ht hnot
    rw [heq]
    refine List.mem_append_left _ (List.mem_map.mpr ⟨t, ht, ?_⟩)
    exact overrideVal_none (find?_eq_none_of_not_mem nm inc (nm t) hnot)
  · intro u hu hmem
    obtain ⟨t0, ht0, hname⟩ := List.mem_map.mp hmem
    have hfind : inc.find? (fun v => decide (nm v = nm t0)) = some u := by
      rw [hname]
      exact find?_eq_some_self nm inc hi u hu
    have hov : overrideVal nm inc t0 = u := overrideVal_some hfind
    constructor
    · rw [heq]
      exact List.mem_append_left _ (List.mem_map.mpr ⟨t0, ht0, hov⟩)
    · intro t ht hnamet
      rw [heq] at ht
      rcases List.mem_append.mp ht with h | h
      · obtain ⟨t1, ht1, heq1⟩ := List.mem_map.mp h
        have hname1 : nm t1 = nm u := by
          rw [← heq1] at hnamet
          rw [← overrideVal_name nm inc t1]
          exact hnamet
        have hfind1 : inc.find? (fun v => decide (nm v = nm t1)) = some u := by
          rw [hname1]
          exact find?_eq_some_self nm inc hi u hu
        rw [← heq1]
        exact overrideVal_some hfind1
      · have := (List.mem_filter.mp h).2
        have hnot : nm t ∉ ex.map nm := of_decide_eq_true this
        rw [hnamet] at hnot
        exact absurd hmem hnot
  · intro u hu hnot
    rw [heq, List.filter_append]
    have h1 : (ex.map (overrideVal nm inc)).filter (fun t => decide (nm t = nm u)) = [] := by
      rw [List.filter_eq_nil_iff]
      intro t ht hc
      obtain ⟨t0, ht0, heq0⟩ := List.mem_map.mp ht
      have : nm t = nm t0 := by
        rw [← heq0]
        exact overrideVal_name nm inc t0
      exact hnot (of_decide_eq_true hc ▸ this ▸ List.mem_map.mpr ⟨t0, ht0, rfl⟩)
    have h2 : (inc.filter (fun v => decide (nm v ∉ ex.map nm))).filter
        (fun t => decide (nm t = nm u)) = [u] := by
      rw [List.filter_filter]
      have hcong : inc.filter (fun t => decide (nm t = nm u) && decide (nm t ∉ ex.map nm)) =
          inc.filter (fun t => decide (nm t = nm u)) := by
        refine List.filter_congr ?_
        intro t _
        by_cases hpt : nm t = nm u
        · rw [decide_eq_true hpt, decide_eq_true (hpt ▸ hnot)]
          rfl
        · rw [decide_eq_false hpt]
          rfl
      rw [hcong]
      exact filter_name_eq_single nm inc hi u hu
    rw [h1, h2]
    rfl
  · intro t ht
    rw [heq, List.map_append]
    refine List.mem_append_left _ ?_
    rw [List.map_map]
    exact List.mem_map.mpr ⟨t, ht, overrideVal_name nm inc t⟩

/-- Witness for C6: merging `[("a",1),("b",2)]` with `[("b",9),("c",3)]` by
first component keeps `("a",1)`. -/
theorem mergeTools_spec_witness :
    ("a", 1) ∈ mergeTools (fun p : String × Nat => p.1) [("a", 1), ("b", 2)]
      [("b", 9), ("c", 3)] :=
  (mergeTools_spec (fun p : String × Nat => p.1) [("a", 1), ("b", 2)] [("b", 9), ("c", 3)]
    (by decide) (by decide)).1 ("a", 1) (by decide) (by decide)

/-- C7 — the prune keeps exactly the verified entries whose key is among the
current tool names: the result's key set is a subset of the current names,
every entry whose key is current survives, lookups of current keys are
unchanged, and the delete-variant prune preserves the subset invariant. -/
theorem pruneVerified_spec {α : Type} (v : List (String × α)) (ns : List String) :
    (∀ p ∈ pruneVerified v ns, p.1 ∈ ns) ∧
    (∀ p ∈ v, p.1 ∈ ns → p ∈ pruneVerified v ns) ∧
    (∀ k, k ∈ ns →
      ((pruneVerified v ns).find? (fun p => p.1 == k)).map (fun p => p.2) =
        (v.find? (fun p => p.1 == k)).map (fun p => p.2)) ∧
    (∀ (names : List String) (tn : String), (∀ p ∈ v, p.1 ∈ names) →
      ∀ p ∈ deletePruneVerified v tn, p.1 ∈ names.filter (fun x => x != tn)) := by
  refine ⟨?_, ?_, ?_, ?_⟩
  · intro p hp
    have := (List.mem_filter.mp hp).2
    exact mem_of_contains_eq_true this
  · intro p hp hmem
    exact List.mem_filter.mpr ⟨hp, contains_eq_true_of_mem hmem⟩
  · intro k hk
    have pruneVerified_cons : ∀ (p : String × α) (v : List (String × α)),
        pruneVerified (p :: v) ns =
          if ns.contains p.1 = true then p :: pruneVerified v ns else pruneVerified v ns := by
      intro p v
      simp only [pruneVerified]
      rw [List.filter_cons]
    induction v with
    | nil => rfl
    | cons p v ih =>
      rw [pruneVerified_cons]
      by_cases hc : ns.contains p.1 = true
      · rw [if_pos hc]
        cases hbeq : (p.1 == k) with
        | true =>
          have hb' : (fun q : String × α => q.1 == k) p = true := hbeq
          rw [List.find?_cons_of_pos (p := fun q : String × α => q.1 == k) _ hb',
            List.find?_cons_of_pos (p := fun q : String × α => q.1 == k) _ hb']
        | false =>
          have hneg : ¬ ((fun q : String × α => q.1 == k) p = true) := by
            simp [hbeq]
          rw [List.find?_cons_of_neg (p := fun q : String × α => q.1 == k) _ hneg,
            List.find?_cons_of_neg (p := fun q : String × α => q.1 == k) _ hneg]
          exact ih
      · rw [if_neg hc]
        have hneg : ¬ ((fun q : String × α => q.1 == k) p = true) := by
          intro hb
          have hpk : p.1 = k := by simpa using hb
          exact hc (contains_eq_true_of_mem (hpk ▸ hk))
        rw [List.find?_cons_of_neg (p := fun q : String × α => q.1 == k) _ hneg]
        exact ih
  · intro names tn hsub p hp
    have h1 := (List.mem_filter.mp hp).1
    have h2 := (List.mem_filter.mp hp).2
    refine List.mem_filter.mpr ⟨hsub p h1, h2⟩

/-- Witness for C7 on a concrete map and name set. -/
theorem pruneVerified_spec_witness :
    ("a", 1) ∈ pruneVerified [("a", 1), ("b", 2)] ["a", "c"] :=
  (pruneVerified_spec [("a", 1), ("b", 2)] ["a", "c"]).2.1 ("a", 1) (by decide) (by decide)

end WebMcpHub
